import Mathlib

/-! Verification development for `util/lp/lar_solver.h`.

A shallow embedding of the linear-arithmetic solver front end `lar_solver`.
The header gives the fields of the solver, the bound conversion
`conversion_helper`, `column_info_with_cls`, `valid_index` and `get_status`;
these are translated from the header.  The bodies of the member functions that
the header only declares are modelled from the specification; the doc comment
of each such definition says so. -/

namespace LarSolver

/-! ## Basic types -/

/-- Exact rationals, the `mpq` of the header. -/
abbrev mpq := ℚ

/-- Variable ids: `var_index`, an `unsigned`. -/
abbrev var_index := ℕ

/-- Constraint ids: `constraint_index`, an `unsigned`. -/
abbrev constraint_index := ℕ

/-- The range of the 32-bit `unsigned` counters of the header. -/
def UNSIGNED_RANGE : ℕ := 2 ^ 32

/-- The value `static_cast<unsigned>(-1)` of the header. -/
def UNSIGNED_MINUS_ONE : ℕ := UNSIGNED_RANGE - 1

/-- Modelled from the spec: the status enumeration `lp_status` is declared outside
`lar_solver.h`; the header names `UNKNOWN`, the spec gives the three values
unknown, satisfiable and unsatisfiable. -/
inductive lp_status where
  | UNKNOWN
  | FEASIBLE
  | INFEASIBLE
  deriving DecidableEq, Repr

/-- Modelled from the spec: the relation kinds `lconstraint_kind` (declared in
`lar_constraints.h`): the relations ≤, ≥, = and the strict variants. -/
inductive lconstraint_kind where
  | LE
  | LT
  | GE
  | GT
  | EQ
  deriving DecidableEq, Repr

/-- Modelled from the spec: `flip_kind` turns a relation around, as is done when
a constraint is multiplied by a negative number. -/
def flip_kind : lconstraint_kind → lconstraint_kind
  | .LE => .GE
  | .LT => .GT
  | .GE => .LE
  | .GT => .LT
  | .EQ => .EQ

/-- Modelled from the spec: the values of the exact representation,
`numeric_pair<mpq>` (declared in `numeric_pair.h`): a rational part and the
coefficient of the infinitesimal. -/
structure numeric_pair where
  x : mpq
  y : mpq
  deriving DecidableEq

/-- Modelled from the spec: the strict order of `numeric_pair`, lexicographic, the
infinitesimal being below every positive rational. -/
def numeric_pair.lt (a b : numeric_pair) : Prop :=
  a.x < b.x ∨ (a.x = b.x ∧ a.y < b.y)

instance (a b : numeric_pair) : Decidable (numeric_pair.lt a b) := by
  unfold numeric_pair.lt; infer_instance

/-- Modelled from the spec: the order of `numeric_pair`, lexicographic. -/
def numeric_pair.le (a b : numeric_pair) : Prop :=
  a.x < b.x ∨ (a.x = b.x ∧ a.y ≤ b.y)

instance (a b : numeric_pair) : Decidable (numeric_pair.le a b) := by
  unfold numeric_pair.le; infer_instance

/-- Modelled from the spec: the rational obtained from a pair by putting `delta` for
the infinitesimal, `rational_part + delta * infinitesimal_coefficient`. -/
def numeric_pair.eval (a : numeric_pair) (delta : mpq) : mpq :=
  a.x + delta * a.y

/-- Modelled from the spec: the aggregated bound record `column_info<mpq>`
(declared in `column_info.h`): the low and upper bounds, whether each is set and
strict, the fixed flag and fixed value, and the column index handed to the
constructor. -/
structure column_info where
  m_column_index : ℕ
  m_low_bound_is_set : Bool
  m_low_bound_is_strict : Bool
  m_upper_bound_is_set : Bool
  m_upper_bound_is_strict : Bool
  m_is_fixed : Bool
  m_low_bound : mpq
  m_upper_bound : mpq
  m_fixed_value : mpq
  m_name : String
  deriving DecidableEq

/-- Modelled from the spec: the accessor `column_info::get_low_bound` of the bound
record. -/
def column_info.get_low_bound (ci : column_info) : mpq := ci.m_low_bound

/-- Modelled from the spec: the accessor `column_info::get_upper_bound` of the bound
record. -/
def column_info.get_upper_bound (ci : column_info) : mpq := ci.m_upper_bound

/-- Modelled from the spec: the accessor `column_info::low_bound_is_strict` of the
bound record. -/
def column_info.low_bound_is_strict (ci : column_info) : Bool := ci.m_low_bound_is_strict

/-- Modelled from the spec: the accessor `column_info::upper_bound_is_strict` of the
bound record. -/
def column_info.upper_bound_is_strict (ci : column_info) : Bool := ci.m_upper_bound_is_strict

/-! ## `conversion_helper<V>` (from the header) -/

/-- The template `conversion_helper<V>::get_low_bound`: `V` is built by its
two-argument constructor `mk` from the low bound and `1` or `0`. -/
def conversion_helper.get_low_bound {V : Type} (mk : mpq → ℤ → V) (ci : column_info) : V :=
  mk ci.get_low_bound (if ci.low_bound_is_strict then 1 else 0)

/-- The template `conversion_helper<V>::get_upper_bound`: `V` is built by its
two-argument constructor `mk` from the upper bound and `-1` or `0`. -/
def conversion_helper.get_upper_bound {V : Type} (mk : mpq → ℤ → V) (ci : column_info) : V :=
  mk ci.get_upper_bound (if ci.upper_bound_is_strict then -1 else 0)

/-- Modelled from the spec: the two-argument constructor of `numeric_pair<mpq>` at an
integer second argument. -/
def numeric_pair.mk_int (a : mpq) (k : ℤ) : numeric_pair := ⟨a, (k : mpq)⟩

/-- Instance `conversion_helper<numeric_pair<mpq>>::get_low_bound`. -/
def get_low_bound_pair (ci : column_info) : numeric_pair :=
  conversion_helper.get_low_bound numeric_pair.mk_int ci

/-- Instance `conversion_helper<numeric_pair<mpq>>::get_upper_bound`. -/
def get_upper_bound_pair (ci : column_info) : numeric_pair :=
  conversion_helper.get_upper_bound numeric_pair.mk_int ci

/-! ## The data of the solver -/

/-- Modelled from the spec: a canonical left side (`canonic_left_side`, declared in
`lar_constraints.h`): the normalized coefficient list and the internal column
that it owns. -/
structure canonic_left_side where
  m_coeffs : List (mpq × var_index)
  m_additional_var_index : var_index
  deriving DecidableEq

/-- The struct `column_info_with_cls` of the header; the pointer
`m_canonic_left_side` is `none` when it is `nullptr`. -/
structure column_info_with_cls where
  m_canonic_left_side : Option canonic_left_side
  m_column_info : column_info
  deriving DecidableEq

/-- Modelled from the spec: the constructor `column_info(unsigned column_index)` that
the header calls: a record without bounds. -/
def column_info.init (j : ℕ) : column_info :=
  ⟨j, false, false, false, false, false, 0, 0, 0, ""⟩

/-- The default constructor `column_info_with_cls()`. -/
def column_info_with_cls.default : column_info_with_cls :=
  ⟨none, column_info.init UNSIGNED_MINUS_ONE⟩

/-- The constructor `column_info_with_cls(canonic_left_side * cls)`. -/
def column_info_with_cls.of_cls (cls : canonic_left_side) : column_info_with_cls :=
  ⟨some cls, column_info.init UNSIGNED_MINUS_ONE⟩

/-- Modelled from the spec: a user constraint (`lar_constraint`, declared in
`lar_constraints.h`): the original left side, the relation, the right side and
the constraint id. -/
structure lar_constraint where
  m_left_side : List (mpq × var_index)
  m_kind : lconstraint_kind
  m_right_side : mpq
  m_index : constraint_index
  deriving DecidableEq

/-- Modelled from the spec: a normalized constraint (`lar_normalized_constraint`,
declared in `lar_constraints.h`): the canonical left side, the scale factor,
the relation and right side against the canonical column, and the constraint
it comes from. -/
structure lar_normalized_constraint where
  m_canonic_left_side : canonic_left_side
  m_ratio_to_original : mpq
  m_kind : lconstraint_kind
  m_right_side : mpq
  m_origin_constraint : lar_constraint
  deriving DecidableEq

/-- Modelled from the spec: the position of a non-basic column in the signature
(`non_basic_column_value_position`, declared in `lar_solution_signature.h`). -/
inductive non_basic_column_value_position where
  | at_low_bound
  | at_upper_bound
  | free_of_bounds
  deriving DecidableEq

/-- Modelled from the spec: the solution signature (`lar_solution_signature`), one
position for each non-basic column. -/
abbrev lar_solution_signature := List (ℕ × non_basic_column_value_position)

/-- Modelled from the spec: what the exact simplex engine leaves in
`m_mpq_lar_core_solver`: a status and either a solution or an infeasible row with
its sign. -/
structure core_result where
  m_status : lp_status
  m_x : List (var_index × numeric_pair)
  m_infeasible_row : List (mpq × var_index)
  m_infeasible_row_sign : ℤ
  deriving DecidableEq

/-- The fields of the class `lar_solver` of the header that registration and
solving use; `m_mpq_lar_core_solver` is kept as the result of the last exact
solve. -/
structure lar_solver where
  m_available_var_index : ℕ
  m_available_constr_index : ℕ
  m_status : lp_status
  m_var_names_to_var_index : List (String × var_index)
  m_set_of_canonic_left_sides : List canonic_left_side
  m_normalized_constraints : List (constraint_index × lar_normalized_constraint)
  m_map_from_var_index_to_column_info_with_cls : List (var_index × column_info_with_cls)
  m_mpq_lar_core_solver : Option core_result
  m_infeasible_canonic_left_side : Option canonic_left_side
  deriving DecidableEq

/-- A freshly constructed solver: the member initializers of the header
(`m_available_var_index = 0`, `m_available_constr_index = 0`,
`m_status = UNKNOWN`, `m_infeasible_canonic_left_side = nullptr`) and empty
containers. -/
def lar_solver.init : lar_solver :=
  ⟨0, 0, lp_status.UNKNOWN, [], [], [], [], none, none⟩

/-- The member `get_status` of the header. -/
def lar_solver.get_status (s : lar_solver) : lp_status := s.m_status

/-- The conversion `static_cast<int>(j)` of a 32-bit unsigned value. -/
def to_signed_int (j : ℕ) : ℤ :=
  if j % UNSIGNED_RANGE < 2 ^ 31 then ((j % UNSIGNED_RANGE : ℕ) : ℤ)
  else ((j % UNSIGNED_RANGE : ℕ) : ℤ) - 2 ^ 32

/-- The member `valid_index` of the header:
`static_cast<int>(j) >= 0`. -/
def valid_index (j : ℕ) : Bool := decide (0 ≤ to_signed_int j)

/-! ## Finite maps keyed by an index -/

/-- Lookup in a map kept as an association list (`unordered_map::find`). -/
def map_find {β : Type} : List (ℕ × β) → ℕ → Option β
  | [], _ => none
  | (k, v) :: m, j => if k = j then some v else map_find m j

/-- Assignment `m[j] = v` in a map kept as an association list. -/
def map_set {β : Type} : List (ℕ × β) → ℕ → β → List (ℕ × β)
  | [], j, v => [(j, v)]
  | (k, w) :: m, j, v => if k = j then (j, v) :: m else (k, w) :: map_set m j v


/-! ## Canonical left sides -/

/-- Modelled from the spec: the addition of `a` to the coefficient of variable `j` in
a coefficient map, as `register_in_map` does for each term. -/
def add_to_coeff : List (var_index × mpq) → var_index → mpq → List (var_index × mpq)
  | [], j, a => [(j, a)]
  | (k, b) :: m, j, a => if k = j then (k, b + a) :: m else (k, b) :: add_to_coeff m j a

/-- Modelled from the spec: the linear expression of a left side as a coefficient
map over variable ids: the coefficients of the terms on the same variable are
added up. -/
def merge_terms (left_side : List (mpq × var_index)) : List (var_index × mpq) :=
  left_side.foldl (fun m t => add_to_coeff m t.2 t.1) []

/-- The coefficient of variable `j` in the linear expression of a left side:
the sum of the coefficients of the terms on `j`. -/
def coeff_in (left_side : List (mpq × var_index)) (j : var_index) : mpq :=
  ((left_side.filter (fun t => decide (t.2 = j))).map Prod.fst).sum

/-- Modelled from the spec: the order in which the terms of a canonical left side are
sorted: by variable id. -/
def term_le (p q : mpq × var_index) : Prop := p.2 ≤ q.2

instance : DecidableRel term_le := fun p q => by unfold term_le; infer_instance

instance : IsTotal (mpq × var_index) term_le := ⟨fun p q => Nat.le_total p.2 q.2⟩

instance : IsTrans (mpq × var_index) term_le := ⟨fun _ _ _ h1 h2 => Nat.le_trans h1 h2⟩

/-- Modelled from the spec: the terms of the linear expression of a left side, sorted
by variable id: one term for each variable whose coefficient in the expression
is not zero. -/
def sorted_terms (left_side : List (mpq × var_index)) : List (mpq × var_index) :=
  List.insertionSort term_le
    (((merge_terms left_side).filter (fun p => decide (p.2 ≠ 0))).map (fun p => (p.2, p.1)))

/-- Modelled from the spec: the normalized form of a left side (the constructor of
`canonic_left_side`): every coefficient of the sorted terms is divided by the
coefficient of the leading term, the term of lowest variable id with nonzero
coefficient.  A left side whose coefficients are all zero has no leading term
and the normalized form without terms. -/
def normalize (left_side : List (mpq × var_index)) : List (mpq × var_index) :=
  match sorted_terms left_side with
  | [] => []
  | (a, j) :: rest => ((a, j) :: rest).map (fun p => (p.1 / a, p.2))

/-- Modelled from the spec: the lookup of a normalized coefficient list in
`m_set_of_canonic_left_sides`, by structural equality of the coefficient lists
(`hash_and_equal_of_canonic_left_side_struct`). -/
def find_canonic_left_side :
    List canonic_left_side → List (mpq × var_index) → Option canonic_left_side
  | [], _ => none
  | c :: cs, coeffs =>
    if c.m_coeffs = coeffs then some c else find_canonic_left_side cs coeffs

/-- Modelled from the spec: `create_or_fetch_existing_left_side`: the left side is
normalized and looked up in the set; an existing entry is returned as it is,
otherwise a new entry is inserted and a new internal column, with the next
index of `m_available_var_index`, is allocated for it. -/
def create_or_fetch_existing_left_side (s : lar_solver)
    (left_side_par : List (mpq × var_index)) : canonic_left_side × lar_solver :=
  match find_canonic_left_side s.m_set_of_canonic_left_sides (normalize left_side_par) with
  | some cls => (cls, s)
  | none =>
    let vj := s.m_available_var_index
    let cls : canonic_left_side := ⟨normalize left_side_par, vj⟩
    (cls,
      { s with
        m_available_var_index := (vj + 1) % UNSIGNED_RANGE
        m_set_of_canonic_left_sides := s.m_set_of_canonic_left_sides ++ [cls]
        m_map_from_var_index_to_column_info_with_cls :=
          map_set s.m_map_from_var_index_to_column_info_with_cls vj
            (column_info_with_cls.of_cls cls) })

/-- Modelled from the spec: `find_ratio_of_original_constraint_to_normalized`: the
scale factor between the original left side and its canonical left side, which
is the coefficient that the leading variable of the canonical side has in the
original left side; a canonical side without terms has no leading variable
and no scale factor. -/
def find_ratio_of_original_constraint_to_normalized (ls : canonic_left_side)
    (constraint : lar_constraint) : Option mpq :=
  match ls.m_coeffs with
  | [] => none
  | (_, j) :: _ => map_find (merge_terms constraint.m_left_side) j

/-- Modelled from the spec: `add_canonic_left_side_for_var`: the trivial canonical
left side of a variable, whose internal column is the variable itself. -/
def add_canonic_left_side_for_var (s : lar_solver) (i : var_index) (var_name : String) :
    lar_solver :=
  let cls : canonic_left_side := ⟨[(1, i)], i⟩
  let ci := column_info_with_cls.of_cls cls
  { s with
    m_set_of_canonic_left_sides := s.m_set_of_canonic_left_sides ++ [cls]
    m_map_from_var_index_to_column_info_with_cls :=
      map_set s.m_map_from_var_index_to_column_info_with_cls i
        { ci with m_column_info := { ci.m_column_info with m_name := var_name } } }

/-- Assignment `m[name] = i` in the map from names to variable ids, kept as an
association list with one entry for each name. -/
def name_map_set : List (String × var_index) → String → var_index → List (String × var_index)
  | [], name, i => [(name, i)]
  | (n, k) :: m, name, i => if n = name then (name, i) :: m else (n, k) :: name_map_set m name i

/-- Modelled from the spec: `add_var`: the next id of the 32-bit counter
`m_available_var_index` is allocated, the name mapping is recorded (a name
given before is not looked up: it gets the new id) and the trivial canonical
left side of the variable is created. -/
def add_var (s : lar_solver) (name : String) : var_index × lar_solver :=
  let i := s.m_available_var_index
  let s1 : lar_solver :=
    { s with
      m_available_var_index := (i + 1) % UNSIGNED_RANGE
      m_var_names_to_var_index := name_map_set s.m_var_names_to_var_index name i }
  (i, add_canonic_left_side_for_var s1 i name)

/-! ## Aggregation of bounds -/

/-- Modelled from the spec: `column_info::is_infeasible`: both bounds are set and
the low bound is above the upper bound.  A column that is fixed at one value
and gets another fixed value has its low bound above its upper bound. -/
def column_info.is_infeasible (ci : column_info) : Bool :=
  ci.m_low_bound_is_set && ci.m_upper_bound_is_set &&
    decide (ci.m_upper_bound < ci.m_low_bound)

/-- Modelled from the spec: `try_to_set_fixed`: a column whose aggregated low and
upper bounds are both set and equal is marked fixed. -/
def try_to_set_fixed (ci : column_info) : column_info :=
  if ci.m_low_bound_is_set && ci.m_upper_bound_is_set
      && decide (ci.m_low_bound = ci.m_upper_bound) then
    { ci with m_is_fixed := true, m_fixed_value := ci.m_low_bound }
  else ci

/-- Modelled from the spec: the upper bound of a column after a contribution `v`
(strict or not): the running minimum, a strict bound being below a non-strict
one of the same value. -/
def column_info.tighten_upper_bound (ci : column_info) (v : mpq) (strict : Bool) :
    column_info :=
  if !ci.m_upper_bound_is_set then
    { ci with m_upper_bound_is_set := true, m_upper_bound := v,
              m_upper_bound_is_strict := strict }
  else if v < ci.m_upper_bound then
    { ci with m_upper_bound := v, m_upper_bound_is_strict := strict }
  else if v = ci.m_upper_bound then
    { ci with m_upper_bound_is_strict := ci.m_upper_bound_is_strict || strict }
  else ci

/-- Modelled from the spec: the low bound of a column after a contribution `v`
(strict or not): the running maximum, a strict bound being above a non-strict
one of the same value. -/
def column_info.tighten_low_bound (ci : column_info) (v : mpq) (strict : Bool) :
    column_info :=
  if !ci.m_low_bound_is_set then
    { ci with m_low_bound_is_set := true, m_low_bound := v,
              m_low_bound_is_strict := strict }
  else if ci.m_low_bound < v then
    { ci with m_low_bound := v, m_low_bound_is_strict := strict }
  else if v = ci.m_low_bound then
    { ci with m_low_bound_is_strict := ci.m_low_bound_is_strict || strict }
  else ci

/-- Modelled from the spec: the column record of variable `vi` in
`m_map_from_var_index_to_column_info_with_cls`; a missing entry is the default
one, as with `operator[]` of the map. -/
def get_column_info_with_cls_from_var_index (s : lar_solver) (vi : var_index) :
    column_info_with_cls :=
  match map_find s.m_map_from_var_index_to_column_info_with_cls vi with
  | some c => c
  | none => column_info_with_cls.default

/-- Modelled from the spec: `get_column_info_from_var_index`, the bound record of
variable `vi`. -/
def get_column_info_from_var_index (s : lar_solver) (vi : var_index) : column_info :=
  (get_column_info_with_cls_from_var_index s vi).m_column_info

/-- Modelled from the spec: the solver with the bound record of column `vi` replaced
by `ci` (the bound record is updated in place through a reference). -/
def set_column_info (s : lar_solver) (vi : var_index) (ci : column_info) : lar_solver :=
  { s with
    m_map_from_var_index_to_column_info_with_cls :=
      map_set s.m_map_from_var_index_to_column_info_with_cls vi
        { get_column_info_with_cls_from_var_index s vi with m_column_info := ci } }

/-- Modelled from the spec: the common end of `set_upper_bound_for_column_info` and
`set_low_bound_for_column_info`: a record with low bound above upper bound
makes the status unsatisfiable and records the canonical left side in
`m_infeasible_canonic_left_side`; otherwise the column is marked fixed when
its bounds are equal. -/
def store_tightened_column_info (s : lar_solver) (ls : canonic_left_side)
    (ci : column_info) : lar_solver :=
  if ci.is_infeasible then
    { set_column_info s ls.m_additional_var_index ci with
      m_status := lp_status.INFEASIBLE
      m_infeasible_canonic_left_side := some ls }
  else set_column_info s ls.m_additional_var_index (try_to_set_fixed ci)

/-- Modelled from the spec: `set_upper_bound_for_column_info`: a ≤, < or =
constraint contributes an upper bound to its canonical column. -/
def set_upper_bound_for_column_info (s : lar_solver)
    (norm_constr : lar_normalized_constraint) : lar_solver :=
  let ls := norm_constr.m_canonic_left_side
  let ci := get_column_info_from_var_index s ls.m_additional_var_index
  store_tightened_column_info s ls
    (ci.tighten_upper_bound norm_constr.m_right_side
      (decide (norm_constr.m_kind = lconstraint_kind.LT)))

/-- Modelled from the spec: `set_low_bound_for_column_info`: a ≥, > or =
constraint contributes a low bound to its canonical column. -/
def set_low_bound_for_column_info (s : lar_solver)
    (norm_constr : lar_normalized_constraint) : lar_solver :=
  let ls := norm_constr.m_canonic_left_side
  let ci := get_column_info_from_var_index s ls.m_additional_var_index
  store_tightened_column_info s ls
    (ci.tighten_low_bound norm_constr.m_right_side
      (decide (norm_constr.m_kind = lconstraint_kind.GT)))

/-- Modelled from the spec: `update_column_info_of_normalized_constraint`: ≤ and <
contribute an upper bound, ≥ and > a low bound, = both. -/
def update_column_info_of_normalized_constraint (s : lar_solver)
    (norm_constr : lar_normalized_constraint) : lar_solver :=
  match norm_constr.m_kind with
  | .LE => set_upper_bound_for_column_info s norm_constr
  | .LT => set_upper_bound_for_column_info s norm_constr
  | .GE => set_low_bound_for_column_info s norm_constr
  | .GT => set_low_bound_for_column_info s norm_constr
  | .EQ => set_low_bound_for_column_info (set_upper_bound_for_column_info s norm_constr)
      norm_constr

/-- Modelled from the spec: the two treatments that the spec allows for a constraint
whose left side has coefficient zero on every term: it is rejected as
degenerate, or it is treated as trivially true or false. -/
inductive degenerate_treatment where
  | rejected
  | trivially_decided
  deriving DecidableEq

/-- The relation `0 kind right_side`, to which a constraint with a zero left
side comes down. -/
def holds_trivially (kind : lconstraint_kind) (right_side : mpq) : Bool :=
  match kind with
  | .LE => decide (0 ≤ right_side)
  | .LT => decide (0 < right_side)
  | .GE => decide (right_side ≤ 0)
  | .GT => decide (right_side < 0)
  | .EQ => decide (right_side = 0)

/-- Modelled from the spec: what `add_constraint` does with a constraint whose left
side has coefficient zero on every term.  A rejected constraint leaves no
trace; a constraint treated as trivially true leaves none either, and one
treated as trivially false makes the status unsatisfiable and records, as the
witness, a canonical left side without terms and without a column. -/
def add_degenerate_constraint (d : degenerate_treatment) (s : lar_solver)
    (constraint : lar_constraint) : lar_solver :=
  match d with
  | .rejected => s
  | .trivially_decided =>
    if holds_trivially constraint.m_kind constraint.m_right_side then s
    else
      { s with
        m_status := lp_status.INFEASIBLE
        m_infeasible_canonic_left_side := some ⟨[], UNSIGNED_MINUS_ONE⟩ }

/-- Modelled from the spec: `add_constraint`: the constraint is registered under
the next constraint id, which is returned in every case; its left side is
normalized, the relation and right side are rewritten against the canonical
side (the relation is flipped when the scale factor is negative) and the
bounds of the canonical column are updated.  A left side with all
coefficients zero has no scale factor and gets the treatment `d`. -/
def add_constraint (d : degenerate_treatment) (s : lar_solver)
    (left_side : List (mpq × var_index)) (kind_par : lconstraint_kind)
    (right_side_par : mpq) : constraint_index × lar_solver :=
  let i := s.m_available_constr_index
  let original_constr : lar_constraint := ⟨left_side, kind_par, right_side_par, i⟩
  let s0 : lar_solver := { s with m_available_constr_index := (i + 1) % UNSIGNED_RANGE }
  let r := create_or_fetch_existing_left_side s0 left_side
  match find_ratio_of_original_constraint_to_normalized r.1 original_constr with
  | none => (i, add_degenerate_constraint d s0 original_constr)
  | some ratio =>
    let kind := if ratio < 0 then flip_kind kind_par else kind_par
    let right_side := right_side_par / ratio
    let normalized_constraint : lar_normalized_constraint :=
      ⟨r.1, ratio, kind, right_side, original_constr⟩
    let s2 : lar_solver :=
      { r.2 with
        m_normalized_constraints :=
          map_set r.2.m_normalized_constraints i normalized_constraint }
    (i, update_column_info_of_normalized_constraint s2 normalized_constraint)

/-! ## Assembling the problem and solving -/

/-- Modelled from the spec: the column classification `column_type`. -/
inductive column_type where
  | free_column
  | low_bound
  | upper_bound
  | boxed
  | fixed
  deriving DecidableEq

/-- Modelled from the spec: `get_column_type` derives the type of a column from its
aggregated bound record. -/
def get_column_type (ci : column_info) : column_type :=
  if ci.m_is_fixed then column_type.fixed
  else if ci.m_low_bound_is_set then
    (if ci.m_upper_bound_is_set then column_type.boxed else column_type.low_bound)
  else if ci.m_upper_bound_is_set then column_type.upper_bound
  else column_type.free_column

/-- Modelled from the spec: the input of the simplex engine in the numeric
representation `V`: the rows of the matrix (an internal column together with
the combination of variables that defines it), the column types and the
bound vectors. -/
structure lp_problem (V : Type) where
  m_A : List (var_index × List (mpq × var_index))
  m_column_types : List (var_index × column_type)
  m_low_bounds : List (var_index × V)
  m_upper_bounds : List (var_index × V)

/-- Modelled from the spec: `create_matrix_A`: one row for each canonical left side
with more than one term. -/
def create_matrix_A (s : lar_solver) : List (var_index × List (mpq × var_index)) :=
  (s.m_set_of_canonic_left_sides.filter (fun c => decide (1 < c.m_coeffs.length))).map
    (fun c => (c.m_additional_var_index, c.m_coeffs))

/-- Modelled from the spec: `prepare_core_solver_fields`: the problem in the
representation `V`, the bounds being converted by `low` and `upp`. -/
def prepare_core_solver_fields {V : Type} (low upp : column_info → V) (s : lar_solver) :
    lp_problem V :=
  let cols := s.m_map_from_var_index_to_column_info_with_cls
  { m_A := create_matrix_A s
    m_column_types := cols.map (fun p => (p.1, get_column_type p.2.m_column_info))
    m_low_bounds := cols.map (fun p => (p.1, low p.2.m_column_info))
    m_upper_bounds := cols.map (fun p => (p.1, upp p.2.m_column_info)) }

/-- Modelled from the spec: the simplex engine, a collaborator outside the solver.
The approximate pass gives a signature from the problem whose bounds have lost
their strictness; the exact pass gives the authoritative result from the exact
problem and the signature. -/
structure simplex_engine where
  find_solution_signature_with_doubles : lp_problem mpq → lar_solution_signature
  solve_on_signature : lp_problem numeric_pair → lar_solution_signature → core_result

/-- Modelled from the spec: the two passes of `solve`: the approximate pass
(`find_solution_signature_with_doubles`) gives a signature, and the exact pass
(`solve_on_signature`) is run from it on the exact problem. -/
def solve_in_two_phases (e : simplex_engine) (s : lar_solver) : core_result :=
  let signature := e.find_solution_signature_with_doubles
    (prepare_core_solver_fields column_info.get_low_bound column_info.get_upper_bound s)
  e.solve_on_signature
    (prepare_core_solver_fields get_low_bound_pair get_upper_bound_pair s) signature

/-- Modelled from the spec: `solve`: nothing is run when a contradiction was recorded
at registration; otherwise the two passes are run and the status of the exact
pass becomes the status of the solver. -/
def solve (e : simplex_engine) (s : lar_solver) : lar_solver :=
  match s.m_infeasible_canonic_left_side with
  | some _ => { s with m_status := lp_status.INFEASIBLE }
  | none =>
    let r := solve_in_two_phases e s
    { s with m_status := r.m_status, m_mpq_lar_core_solver := some r }

/-- Modelled from the spec: `check` calls `solve` and returns the status. -/
def check (e : simplex_engine) (s : lar_solver) : lp_status × lar_solver :=
  let s1 := solve e s
  (s1.m_status, s1)


/-! ## Checking an infeasibility certificate -/

/-- The ids returned by `add_var` called on the names of a list, one after the
other, and the solver after the calls. -/
def add_vars (s : lar_solver) : List String → List var_index × lar_solver
  | [] => ([], s)
  | name :: names =>
    let r := add_var s name
    let rs := add_vars r.2 names
    (r.1 :: rs.1, rs.2)

/-- A call of the public interface of the solver. -/
inductive solver_call where
  | add_var (name : String)
  | add_constraint (left_side : List (mpq × var_index)) (kind : lconstraint_kind)
      (right_side : mpq)
  | check

/-- The solver after one call. -/
def run_call (d : degenerate_treatment) (e : simplex_engine) (s : lar_solver) :
    solver_call → lar_solver
  | .add_var name => (add_var s name).2
  | .add_constraint left_side kind right_side =>
    (add_constraint d s left_side kind right_side).2
  | .check => (check e s).2

/-- The solver after a sequence of calls. -/
def run_calls (d : degenerate_treatment) (e : simplex_engine) (s : lar_solver) :
    List solver_call → lar_solver
  | [] => s
  | c :: cs => run_calls d e (run_call d e s c) cs

/-- The variable ids that the `add_var` calls of a sequence of calls return,
in the order of the calls. -/
def returned_var_ids (d : degenerate_treatment) (e : simplex_engine) (s : lar_solver) :
    List solver_call → List var_index
  | [] => []
  | .add_var name :: cs =>
    (add_var s name).1 :: returned_var_ids d e (add_var s name).2 cs
  | c :: cs => returned_var_ids d e (run_call d e s c) cs

/-- The const member `get_status` as a call in state-passing form: the status
returned and the solver after the call. -/
def get_status_call (s : lar_solver) : lp_status × lar_solver := (s.get_status, s)

/-- The number of ids that a sequence of calls draws from the counter
`m_available_var_index`: one for each call after which the counter has another
value (`add_var`, and `add_constraint` when it allocates an internal
column). -/
def ids_drawn (d : degenerate_treatment) (e : simplex_engine) (s : lar_solver) :
    List solver_call → ℕ
  | [] => 0
  | c :: cs =>
    (if (run_call d e s c).m_available_var_index = s.m_available_var_index then 0 else 1)
      + ids_drawn d e (run_call d e s c) cs

/-! ## The contract of the exact engine and the evidence of infeasibility -/

/-- The scale factor of a normalized constraint is in order: it is not zero, it
is what `find_ratio_of_original_constraint_to_normalized` gives for the
constraint and its canonical left side, and the canonical coefficients
multiplied by it are the terms of the original linear expression, sorted by
variable id. -/
def scale_factor_ok (nc : lar_normalized_constraint) : Prop :=
  nc.m_ratio_to_original ≠ 0
  ∧ find_ratio_of_original_constraint_to_normalized nc.m_canonic_left_side
      nc.m_origin_constraint = some nc.m_ratio_to_original
  ∧ nc.m_canonic_left_side.m_coeffs.map (fun p => (nc.m_ratio_to_original * p.1, p.2))
      = sorted_terms nc.m_origin_constraint.m_left_side

/-- An engine that gives no signature and no result, for sequences of calls
without `check`. -/
def idle_engine : simplex_engine :=
  ⟨fun _ => [], fun _ _ => ⟨lp_status.UNKNOWN, [], [], 0⟩⟩

/-- C10: for every column record, `conversion_helper<V>` builds the low bound
from the low bound value and `1` (strict) or `0`, and the upper bound from the
upper bound value and `-1` (strict) or `0`; in the exact representation these
are the pairs `(low, 1)`, `(low, 0)`, `(upper, -1)`, `(upper, 0)`, and the
converted low bound is above `(low, 0)` exactly when the bound is strict, the
converted upper bound below `(upper, 0)` exactly when it is strict. -/
theorem conversion_helper_strict_bounds (ci : column_info) :
    (∀ (V : Type) (mk : mpq → ℤ → V),
      conversion_helper.get_low_bound mk ci
          = (if ci.low_bound_is_strict = true then mk ci.get_low_bound 1
             else mk ci.get_low_bound 0)
      ∧ conversion_helper.get_upper_bound mk ci
          = (if ci.upper_bound_is_strict = true then mk ci.get_upper_bound (-1)
             else mk ci.get_upper_bound 0))
    ∧ get_low_bound_pair ci
        = (if ci.low_bound_is_strict = true then ⟨ci.get_low_bound, 1⟩
           else ⟨ci.get_low_bound, 0⟩)
    ∧ get_upper_bound_pair ci
        = (if ci.upper_bound_is_strict = true then ⟨ci.get_upper_bound, -1⟩
           else ⟨ci.get_upper_bound, 0⟩)
    ∧ (numeric_pair.lt ⟨ci.get_low_bound, 0⟩ (get_low_bound_pair ci)
        ↔ ci.low_bound_is_strict = true)
    ∧ (numeric_pair.lt (get_upper_bound_pair ci) ⟨ci.get_upper_bound, 0⟩
        ↔ ci.upper_bound_is_strict = true) := by
  refine ⟨?_, ?_, ?_, ?_, ?_⟩
  · intro V mk
    constructor
    · unfold conversion_helper.get_low_bound
      split <;> rfl
    · unfold conversion_helper.get_upper_bound
      split <;> rfl
  · unfold get_low_bound_pair conversion_helper.get_low_bound numeric_pair.mk_int
    split <;> simp
  · unfold get_upper_bound_pair conversion_helper.get_upper_bound numeric_pair.mk_int
    split <;> simp
  · unfold get_low_bound_pair conversion_helper.get_low_bound numeric_pair.mk_int
      numeric_pair.lt
    by_cases h : ci.low_bound_is_strict = true <;> simp [h]
  · unfold get_upper_bound_pair conversion_helper.get_upper_bound numeric_pair.mk_int
      numeric_pair.lt
    by_cases h : ci.upper_bound_is_strict = true <;> simp [h]

/-! ## Valid indices -/

/-- C17: for a 32-bit unsigned `j`, `valid_index(j)` is true exactly when
`j < 2^31`, that is when `static_cast<int>(j)` is not negative; the sentinel
`static_cast<unsigned>(-1) = 2^32 - 1`, which both constructors of
`column_info_with_cls` pass to `column_info`, is read as `-1` and is not a valid
index. -/
theorem valid_index_iff (j : ℕ) (hj : j < UNSIGNED_RANGE) :
    (valid_index j = true ↔ j < 2 ^ 31)
    ∧ (to_signed_int j = if j < 2 ^ 31 then (j : ℤ) else (j : ℤ) - 2 ^ 32)
    ∧ UNSIGNED_MINUS_ONE = 2 ^ 32 - 1
    ∧ to_signed_int UNSIGNED_MINUS_ONE = -1
    ∧ valid_index UNSIGNED_MINUS_ONE = false
    ∧ column_info_with_cls.default.m_column_info.m_column_index = UNSIGNED_MINUS_ONE
    ∧ ∀ cls : canonic_left_side,
        (column_info_with_cls.of_cls cls).m_column_info.m_column_index = UNSIGNED_MINUS_ONE := by
  have hmod : j % UNSIGNED_RANGE = j := Nat.mod_eq_of_lt hj
  have hs : to_signed_int j = if j < 2 ^ 31 then (j : ℤ) else (j : ℤ) - 2 ^ 32 := by
    unfold to_signed_int
    rw [hmod]
  have hm1 : to_signed_int UNSIGNED_MINUS_ONE = -1 := by
    norm_num [to_signed_int, UNSIGNED_MINUS_ONE, UNSIGNED_RANGE]
  refine ⟨?_, hs, rfl, hm1, ?_, rfl, fun _ => rfl⟩
  · unfold valid_index
    rw [hs, decide_eq_true_iff]
    unfold UNSIGNED_RANGE at hj
    split_ifs with h
    · simp only [Int.natCast_nonneg, true_iff]
      exact h
    · constructor
      · intro h0
        exfalso
        have : (j : ℤ) < 2 ^ 32 := by exact_mod_cast hj
        linarith
      · intro h1
        exact absurd h1 h
  · unfold valid_index
    rw [hm1]
    decide

/-- Witness of C17: `2^31 - 1` is a valid index and `2^31` is not. -/
theorem valid_index_iff_witness :
    valid_index (2 ^ 31 - 1) = true ∧ ¬ (valid_index (2 ^ 31) = true) :=
  ⟨((valid_index_iff (2 ^ 31 - 1) (by norm_num [UNSIGNED_RANGE])).1).2 (by norm_num),
   fun h => absurd (((valid_index_iff (2 ^ 31) (by norm_num [UNSIGNED_RANGE])).1).1 h)
     (by norm_num)⟩

/-! ## Status, column types and converted bounds -/

/-- C16: a freshly constructed solver reports `get_status() = UNKNOWN`, and
`get_status()` returns the field `m_status` as it is and leaves the solver
unchanged. -/
theorem get_status_of_fresh_solver :
    lar_solver.init.get_status = lp_status.UNKNOWN
    ∧ lar_solver.init.m_status = lp_status.UNKNOWN
    ∧ (∀ s : lar_solver, s.get_status = s.m_status)
    ∧ (∀ s : lar_solver, (get_status_call s).1 = s.m_status)
    ∧ ∀ s : lar_solver, (get_status_call s).2 = s :=
  ⟨rfl, rfl, fun _ => rfl, fun _ => rfl, fun _ => rfl⟩

/-- C14: `get_column_type` depends on the three flags of the bound record
only, and returns fixed exactly when the column is fixed, and for a column
that is not fixed: boxed exactly when both bounds are set, low-bounded when
only the low bound is set, upper-bounded when only the upper bound is set,
free when none is set. -/
theorem get_column_type_cases (ci : column_info) :
    (get_column_type ci = column_type.fixed ↔ ci.m_is_fixed = true)
    ∧ (get_column_type ci = column_type.boxed ↔
        ci.m_is_fixed = false ∧ ci.m_low_bound_is_set = true
          ∧ ci.m_upper_bound_is_set = true)
    ∧ (get_column_type ci = column_type.low_bound ↔
        ci.m_is_fixed = false ∧ ci.m_low_bound_is_set = true
          ∧ ci.m_upper_bound_is_set = false)
    ∧ (get_column_type ci = column_type.upper_bound ↔
        ci.m_is_fixed = false ∧ ci.m_low_bound_is_set = false
          ∧ ci.m_upper_bound_is_set = true)
    ∧ (get_column_type ci = column_type.free_column ↔
        ci.m_is_fixed = false ∧ ci.m_low_bound_is_set = false
          ∧ ci.m_upper_bound_is_set = false)
    ∧ get_column_type ci
        = get_column_type ⟨0, ci.m_low_bound_is_set, false, ci.m_upper_bound_is_set, false,
            ci.m_is_fixed, 0, 0, 0, ""⟩ := by
  unfold get_column_type
  cases hf : ci.m_is_fixed <;> cases hl : ci.m_low_bound_is_set <;>
    cases hu : ci.m_upper_bound_is_set <;> simp

/-- C15: when the low and the upper bound of a column record are the same
rational, the low bound converted by `conversion_helper` is at most the
converted upper bound, in the lexicographic order of the pairs, exactly when
neither bound is strict; when the low bound is below the upper bound, the
converted low bound is below the converted upper bound whatever the
strictness flags are. -/
theorem converted_bounds_order (ci : column_info) :
    (ci.get_low_bound = ci.get_upper_bound →
      (numeric_pair.le (get_low_bound_pair ci) (get_upper_bound_pair ci)
        ↔ ci.low_bound_is_strict = false ∧ ci.upper_bound_is_strict = false))
    ∧ (ci.get_low_bound < ci.get_upper_bound →
        numeric_pair.lt (get_low_bound_pair ci) (get_upper_bound_pair ci)) := by
  unfold numeric_pair.le numeric_pair.lt get_low_bound_pair get_upper_bound_pair
    conversion_helper.get_low_bound conversion_helper.get_upper_bound numeric_pair.mk_int
  constructor
  · intro h
    cases hl : ci.low_bound_is_strict <;> cases hu : ci.upper_bound_is_strict <;>
      norm_num [h]
  · intro h
    exact Or.inl h

/-- Witness of C15: for the record with both bounds at `1`, low bound strict,
the converted bounds `(1, 1)` and `(1, 0)` are not in order; for the record
with bounds `1` and `2`, both strict, `(1, 1)` is below `(2, -1)`. -/
theorem converted_bounds_order_witness :
    ¬ numeric_pair.le (get_low_bound_pair ⟨0, true, true, true, false, false, 1, 1, 0, ""⟩)
        (get_upper_bound_pair ⟨0, true, true, true, false, false, 1, 1, 0, ""⟩)
    ∧ numeric_pair.lt (get_low_bound_pair ⟨0, true, true, true, true, false, 1, 2, 0, ""⟩)
        (get_upper_bound_pair ⟨0, true, true, true, true, false, 1, 2, 0, ""⟩) :=
  ⟨fun h => absurd
      (((converted_bounds_order ⟨0, true, true, true, false, false, 1, 1, 0, ""⟩).1 rfl).1 h).1
      (by decide),
   (converted_bounds_order ⟨0, true, true, true, true, false, 1, 2, 0, ""⟩).2
     (by norm_num [column_info.get_low_bound, column_info.get_upper_bound])⟩


/-! ## Finite maps and coefficient maps -/

theorem map_find_map_set_same {β : Type} (m : List (ℕ × β)) (j : ℕ) (v : β) :
    map_find (map_set m j v) j = some v := by
  induction m with
  | nil => simp [map_set, map_find]
  | cons p m ih =>
    obtain ⟨k, w⟩ := p
    by_cases h : k = j
    · simp [map_set, map_find, h]
    · simp [map_set, map_find, h, ih]

theorem map_find_map_set_other {β : Type} (m : List (ℕ × β)) (j k : ℕ) (v : β)
    (h : j ≠ k) : map_find (map_set m j v) k = map_find m k := by
  induction m with
  | nil => simp [map_set, map_find, h]
  | cons p m ih =>
    obtain ⟨i, w⟩ := p
    by_cases hij : i = j
    · subst hij
      simp [map_set, map_find, h]
    · by_cases hik : i = k
      · subst hik
        simp [map_set, map_find, hij]
      · simp [map_set, map_find, hij, hik, ih]

theorem mem_map_set {β : Type} (m : List (ℕ × β)) (j : ℕ) (v : β) (p : ℕ × β)
    (h : p ∈ map_set m j v) : p = (j, v) ∨ p ∈ m := by
  induction m with
  | nil =>
    simp only [map_set, List.mem_singleton] at h
    exact Or.inl h
  | cons q m ih =>
    obtain ⟨k, w⟩ := q
    unfold map_set at h
    by_cases hk : k = j
    · rw [if_pos hk] at h
      rcases List.mem_cons.1 h with h1 | h1
      · exact Or.inl h1
      · exact Or.inr (List.mem_cons_of_mem _ h1)
    · rw [if_neg hk] at h
      rcases List.mem_cons.1 h with h1 | h1
      · exact Or.inr (h1 ▸ List.mem_cons_self _ _)
      · rcases ih h1 with h2 | h2
        · exact Or.inl h2
        · exact Or.inr (List.mem_cons_of_mem _ h2)

theorem map_find_add_to_coeff (m : List (var_index × mpq)) (j k : var_index) (a : mpq) :
    map_find (add_to_coeff m j a) k
      = if j = k then some ((map_find m j).getD 0 + a) else map_find m k := by
  induction m with
  | nil =>
    by_cases h : j = k <;> simp [add_to_coeff, map_find, h]
  | cons p m ih =>
    obtain ⟨i, b⟩ := p
    by_cases hij : i = j
    · subst hij
      by_cases h : i = k <;> simp [add_to_coeff, map_find, h]
    · by_cases h : j = k
      · subst h
        simp [add_to_coeff, map_find, hij, ih]
      · by_cases hik : i = k
        · subst hik
          have hji : ¬ j = i := h
          simp [add_to_coeff, map_find, hij, hji]
        · simp [add_to_coeff, map_find, hij, hik, ih, h]

theorem keys_add_to_coeff (m : List (var_index × mpq)) (j : var_index) (a : mpq) :
    (add_to_coeff m j a).map Prod.fst
      = if j ∈ m.map Prod.fst then m.map Prod.fst else m.map Prod.fst ++ [j] := by
  induction m with
  | nil => simp [add_to_coeff]
  | cons p m ih =>
    obtain ⟨i, b⟩ := p
    by_cases hij : i = j
    · subst hij
      simp [add_to_coeff]
    · have hji : ¬ j = i := fun h => hij h.symm
      simp only [add_to_coeff, hij, if_false, List.map_cons, ih, List.mem_cons, hji, false_or]
      split <;> simp

theorem nodup_keys_add_to_coeff (m : List (var_index × mpq)) (j : var_index) (a : mpq)
    (h : (m.map Prod.fst).Nodup) : ((add_to_coeff m j a).map Prod.fst).Nodup := by
  rw [keys_add_to_coeff]
  split
  · exact h
  · rename_i hj
    refine List.Nodup.append h (List.nodup_singleton j) ?_
    intro a ha hb
    rw [List.mem_singleton] at hb
    subst hb
    exact hj ha

theorem map_find_of_mem (m : List (var_index × mpq)) (h : (m.map Prod.fst).Nodup)
    (j : var_index) (a : mpq) (hm : (j, a) ∈ m) : map_find m j = some a := by
  induction m with
  | nil => simp at hm
  | cons p m ih =>
    obtain ⟨i, b⟩ := p
    simp only [List.map_cons, List.nodup_cons] at h
    rcases List.mem_cons.1 hm with h1 | h1
    · simp only [Prod.mk.injEq] at h1
      simp [map_find, h1.1, h1.2]
    · have hne : ¬ i = j := by
        intro hij
        apply h.1
        rw [hij]
        exact List.mem_map_of_mem Prod.fst h1
      simp [map_find, hne, ih h.2 h1]

theorem mem_of_map_find (m : List (var_index × mpq)) (j : var_index) (a : mpq)
    (h : map_find m j = some a) : (j, a) ∈ m := by
  induction m with
  | nil => simp [map_find] at h
  | cons p m ih =>
    obtain ⟨i, b⟩ := p
    by_cases hij : i = j
    · simp [map_find, hij] at h
      simp [hij, h]
    · simp [map_find, hij] at h
      exact List.mem_cons_of_mem _ (ih h)

theorem coeff_in_cons (t : mpq × var_index) (l : List (mpq × var_index)) (j : var_index) :
    coeff_in (t :: l) j = (if t.2 = j then t.1 else 0) + coeff_in l j := by
  unfold coeff_in
  by_cases h : t.2 = j <;> simp [List.filter_cons, h]

/-- The coefficient map built by `merge_terms` holds the coefficients of the
linear expression. -/
theorem foldl_add_to_coeff (l : List (mpq × var_index)) (m : List (var_index × mpq))
    (j : var_index) :
    (map_find (l.foldl (fun m t => add_to_coeff m t.2 t.1) m) j).getD 0
        = (map_find m j).getD 0 + coeff_in l j
    ∧ ((m.map Prod.fst).Nodup →
        ((l.foldl (fun m t => add_to_coeff m t.2 t.1) m).map Prod.fst).Nodup) := by
  induction l generalizing m with
  | nil => simp [coeff_in]
  | cons t l ih =>
    obtain ⟨ih1, ih2⟩ := ih (add_to_coeff m t.2 t.1)
    simp only [List.foldl_cons]
    refine ⟨?_, fun h => ih2 (nodup_keys_add_to_coeff m _ _ h)⟩
    rw [ih1, map_find_add_to_coeff, coeff_in_cons]
    by_cases h : t.2 = j
    · subst h
      simp [add_assoc]
    · simp [h]

/-! ## Canonical left sides of proportional expressions -/

theorem merge_terms_nodup (l : List (mpq × var_index)) :
    ((merge_terms l).map Prod.fst).Nodup :=
  (foldl_add_to_coeff l [] 0).2 (by simp)

theorem merge_terms_getD (l : List (mpq × var_index)) (j : var_index) :
    (map_find (merge_terms l) j).getD 0 = coeff_in l j := by
  have h := (foldl_add_to_coeff l [] j).1
  simpa [merge_terms, map_find] using h

/-- The terms of `sorted_terms` are the variables with a nonzero coefficient in
the linear expression, each with that coefficient. -/
theorem mem_sorted_terms (l : List (mpq × var_index)) (a : mpq) (j : var_index) :
    (a, j) ∈ sorted_terms l ↔ a = coeff_in l j ∧ a ≠ 0 := by
  unfold sorted_terms
  rw [(List.perm_insertionSort term_le _).mem_iff]
  simp only [List.mem_map, List.mem_filter, Prod.mk.injEq, decide_eq_true_eq, Prod.exists]
  constructor
  · rintro ⟨k, b, ⟨hm, hb⟩, rfl, rfl⟩
    have h1 := map_find_of_mem _ (merge_terms_nodup l) _ _ hm
    have h2 := merge_terms_getD l k
    rw [h1] at h2
    exact ⟨h2, hb⟩
  · rintro ⟨ha, hne⟩
    have h2 := merge_terms_getD l j
    cases hf : map_find (merge_terms l) j with
    | none =>
      rw [hf] at h2
      exact absurd (ha.trans h2.symm) hne
    | some v =>
      rw [hf] at h2
      have hv : v = a := by simpa [ha] using h2
      subst hv
      exact ⟨j, v, ⟨mem_of_map_find _ _ _ hf, hne⟩, rfl, rfl⟩

theorem find_canonic_left_side_coeffs (cs : List canonic_left_side)
    (coeffs : List (mpq × var_index)) (c : canonic_left_side)
    (h : find_canonic_left_side cs coeffs = some c) : c.m_coeffs = coeffs ∧ c ∈ cs := by
  induction cs with
  | nil => simp [find_canonic_left_side] at h
  | cons d cs ih =>
    unfold find_canonic_left_side at h
    by_cases hd : d.m_coeffs = coeffs
    · simp [hd] at h
      subst h
      exact ⟨hd, List.mem_cons_self _ _⟩
    · simp [hd] at h
      exact ⟨(ih h).1, List.mem_cons_of_mem _ (ih h).2⟩

/-- The canonical left side given by `create_or_fetch_existing_left_side`
holds the normal form of the left side. -/
theorem create_or_fetch_coeffs (s : lar_solver) (l : List (mpq × var_index)) :
    (create_or_fetch_existing_left_side s l).1.m_coeffs = normalize l := by
  unfold create_or_fetch_existing_left_side
  split
  · rename_i cls hf
    exact (find_canonic_left_side_coeffs _ _ _ hf).1
  · rfl

/-- The scale factor that `find_ratio_of_original_constraint_to_normalized`
gives for a left side and its normal form: none when every coefficient of the
linear expression is zero, and otherwise the coefficient of the leading term,
which is not zero. -/
theorem find_ratio_of_normalize (ls : canonic_left_side) (c : lar_constraint)
    (h : ls.m_coeffs = normalize c.m_left_side) :
    (sorted_terms c.m_left_side = []
      ∧ find_ratio_of_original_constraint_to_normalized ls c = none)
    ∨ ∃ a j rest, sorted_terms c.m_left_side = (a, j) :: rest ∧ a ≠ 0
        ∧ find_ratio_of_original_constraint_to_normalized ls c = some a
        ∧ ls.m_coeffs.map (fun p => (a * p.1, p.2)) = sorted_terms c.m_left_side := by
  cases hs : sorted_terms c.m_left_side with
  | nil =>
    left
    refine ⟨rfl, ?_⟩
    unfold find_ratio_of_original_constraint_to_normalized
    rw [h]
    simp [normalize, hs]
  | cons p rest =>
    obtain ⟨a, j⟩ := p
    right
    have hm : (a, j) ∈ sorted_terms c.m_left_side := by
      rw [hs]
      exact List.mem_cons_self _ _
    obtain ⟨ha, hne⟩ := (mem_sorted_terms _ _ _).1 hm
    have hg := merge_terms_getD c.m_left_side j
    have hf : map_find (merge_terms c.m_left_side) j = some a := by
      cases hf : map_find (merge_terms c.m_left_side) j with
      | none =>
        rw [hf] at hg
        exact absurd (ha.trans hg.symm) hne
      | some v =>
        rw [hf] at hg
        have hv : v = a := by simpa [ha] using hg
        rw [hv]
    have hn : normalize c.m_left_side
        = ((a, j) :: rest).map (fun p => (p.1 / a, p.2)) := by
      simp [normalize, hs]
    refine ⟨a, j, rest, rfl, hne, ?_, ?_⟩
    · unfold find_ratio_of_original_constraint_to_normalized
      rw [h, hn]
      simpa using hf
    · rw [h, hn, List.map_map]
      conv_rhs => rw [← List.map_id ((a, j) :: rest)]
      apply List.map_congr_left
      intro p _
      simp only [Function.comp, id, Prod.mk.injEq]
      exact Prod.ext (mul_div_cancel₀ _ hne) rfl

theorem store_tightened_normalized_constraints (s : lar_solver) (ls : canonic_left_side)
    (ci : column_info) :
    (store_tightened_column_info s ls ci).m_normalized_constraints
      = s.m_normalized_constraints := by
  unfold store_tightened_column_info
  split <;> simp [set_column_info]

theorem update_column_info_normalized_constraints (s : lar_solver)
    (nc : lar_normalized_constraint) :
    (update_column_info_of_normalized_constraint s nc).m_normalized_constraints
      = s.m_normalized_constraints := by
  unfold update_column_info_of_normalized_constraint
  split <;>
    simp only [set_upper_bound_for_column_info, set_low_bound_for_column_info,
      store_tightened_normalized_constraints]

theorem create_or_fetch_normalized_constraints (s : lar_solver)
    (l : List (mpq × var_index)) :
    (create_or_fetch_existing_left_side s l).2.m_normalized_constraints
      = s.m_normalized_constraints := by
  unfold create_or_fetch_existing_left_side
  split <;> rfl

theorem add_degenerate_normalized_constraints (d : degenerate_treatment) (s : lar_solver)
    (c : lar_constraint) :
    (add_degenerate_constraint d s c).m_normalized_constraints
      = s.m_normalized_constraints := by
  unfold add_degenerate_constraint
  cases d
  · rfl
  · simp only
    split <;> rfl

/-- The function `solve` leaves everything that registration wrote as it is. -/
theorem solve_keeps_registration (e : simplex_engine) (s : lar_solver) :
    (solve e s).m_available_var_index = s.m_available_var_index
    ∧ (solve e s).m_available_constr_index = s.m_available_constr_index
    ∧ (solve e s).m_var_names_to_var_index = s.m_var_names_to_var_index
    ∧ (solve e s).m_set_of_canonic_left_sides = s.m_set_of_canonic_left_sides
    ∧ (solve e s).m_normalized_constraints = s.m_normalized_constraints
    ∧ (solve e s).m_map_from_var_index_to_column_info_with_cls
        = s.m_map_from_var_index_to_column_info_with_cls
    ∧ (solve e s).m_infeasible_canonic_left_side = s.m_infeasible_canonic_left_side := by
  unfold solve
  split <;> simp

/-- The call `add_constraint` stores at most one normalized constraint, whose
scale factor is in order, and keeps the others. -/
theorem scale_factor_ok_add_constraint (d : degenerate_treatment) (s : lar_solver)
    (l : List (mpq × var_index)) (k : lconstraint_kind) (r : mpq)
    (h : ∀ p ∈ s.m_normalized_constraints, scale_factor_ok p.2) :
    ∀ p ∈ (add_constraint d s l k r).2.m_normalized_constraints, scale_factor_ok p.2 := by
  intro p hp
  unfold add_constraint at hp
  simp only at hp
  split at hp
  · rw [add_degenerate_normalized_constraints] at hp
    exact h p hp
  · rename_i ratio hr
    rw [update_column_info_normalized_constraints] at hp
    rcases mem_map_set _ _ _ _ hp with h1 | h1
    · rw [h1]
      have hco := create_or_fetch_coeffs
        { s with m_available_constr_index := (s.m_available_constr_index + 1) % UNSIGNED_RANGE }
        l
      rcases find_ratio_of_normalize _ ⟨l, k, r, s.m_available_constr_index⟩ hco with
        ⟨_, hn⟩ | ⟨a, j, rest, _, hne, hf, hmap⟩
      · rw [hn] at hr
        exact absurd hr (by simp)
      · rw [hf] at hr
        simp only [Option.some.injEq] at hr
        subst hr
        exact ⟨hne, hf, hmap⟩
    · rw [create_or_fetch_normalized_constraints] at h1
      exact h p h1

theorem scale_factor_ok_run_calls (d : degenerate_treatment) (e : simplex_engine)
    (calls : List solver_call) (s : lar_solver)
    (h : ∀ p ∈ s.m_normalized_constraints, scale_factor_ok p.2) :
    ∀ p ∈ (run_calls d e s calls).m_normalized_constraints, scale_factor_ok p.2 := by
  induction calls generalizing s with
  | nil => exact h
  | cons c cs ih =>
    unfold run_calls
    apply ih
    cases c with
    | add_var name => exact h
    | add_constraint l k r => exact scale_factor_ok_add_constraint d s l k r h
    | check =>
      simp only [run_call, check]
      rw [(solve_keeps_registration e s).2.2.2.2.1]
      exact h

/-- C12: after every sequence of `add_var`, `add_constraint` and `check` calls
on a fresh solver, whatever the treatment of constraints with a zero left side
and whatever the engine, every normalized constraint stored in
`m_normalized_constraints` has a nonzero scale factor; the scale factor is the
ratio that `find_ratio_of_original_constraint_to_normalized` computes between
the original left side and the canonical left side, and the canonical left
side multiplied by it is the original linear expression. -/
theorem scale_factors_nonzero (d : degenerate_treatment) (e : simplex_engine)
    (calls : List solver_call) :
    ∀ p ∈ (run_calls d e lar_solver.init calls).m_normalized_constraints,
      p.2.m_ratio_to_original ≠ 0 ∧ scale_factor_ok p.2 := by
  intro p hp
  have := scale_factor_ok_run_calls d e calls lar_solver.init (by simp [lar_solver.init]) p hp
  exact ⟨this.1, this⟩
/-- Witness of C12: after `add_var("x")`, `add_var("y")` and `0x + 2y ≤ 4` the
one stored normalized constraint is on the canonical left side of `y` and has
the scale factor 2. -/
theorem scale_factors_nonzero_witness :
    ∃ nc, (0, nc) ∈ (run_calls degenerate_treatment.rejected idle_engine lar_solver.init
          [solver_call.add_var "x", solver_call.add_var "y",
           solver_call.add_constraint [(0, 0), (2, 1)]
             lconstraint_kind.LE 4]).m_normalized_constraints
      ∧ nc.m_ratio_to_original = 2
      ∧ nc.m_canonic_left_side = ⟨[(1, 1)], 1⟩
      ∧ (nc.m_ratio_to_original ≠ 0 ∧ scale_factor_ok nc) := by
  have h : (run_calls degenerate_treatment.rejected idle_engine lar_solver.init
          [solver_call.add_var "x", solver_call.add_var "y",
           solver_call.add_constraint [(0, 0), (2, 1)]
             lconstraint_kind.LE 4]).m_normalized_constraints
      = [(0, ⟨⟨[(1, 1)], 1⟩, 2, lconstraint_kind.LE, 2,
          ⟨[(0, 0), (2, 1)], lconstraint_kind.LE, 4, 0⟩⟩)] := by
    norm_num [run_calls, run_call, add_var, add_constraint, add_canonic_left_side_for_var,
      create_or_fetch_existing_left_side, normalize, sorted_terms, merge_terms, add_to_coeff,
      find_canonic_left_side, lar_solver.init, name_map_set,
      find_ratio_of_original_constraint_to_normalized,
      update_column_info_normalized_constraints, map_find,
      map_set, column_info_with_cls.of_cls, column_info.init, term_le, UNSIGNED_RANGE,
      List.insertionSort, List.orderedInsert]
  have hm : (0, (⟨⟨[(1, 1)], 1⟩, 2, lconstraint_kind.LE, 2,
        ⟨[(0, 0), (2, 1)], lconstraint_kind.LE, 4, 0⟩⟩ : lar_normalized_constraint))
      ∈ (run_calls degenerate_treatment.rejected idle_engine lar_solver.init
          [solver_call.add_var "x", solver_call.add_var "y",
           solver_call.add_constraint [(0, 0), (2, 1)]
             lconstraint_kind.LE 4]).m_normalized_constraints := by
    rw [h]
    exact List.mem_singleton_self _
  exact ⟨_, hm, rfl, rfl, scale_factors_nonzero _ _ _ _ hm⟩

/-! ## Contradictions found at registration -/

theorem get_column_info_set_column_info (s : lar_solver) (vi : var_index) (ci : column_info) :
    get_column_info_from_var_index (set_column_info s vi ci) vi = ci := by
  simp [get_column_info_from_var_index, get_column_info_with_cls_from_var_index,
    set_column_info, map_find_map_set_same]

theorem get_column_info_set_column_info_other (s : lar_solver) (vi j : var_index)
    (ci : column_info) (h : vi ≠ j) :
    get_column_info_from_var_index (set_column_info s vi ci) j
      = get_column_info_from_var_index s j := by
  simp only [get_column_info_from_var_index, get_column_info_with_cls_from_var_index,
    set_column_info, map_find_map_set_other _ _ _ _ h]

theorem is_infeasible_try_to_set_fixed (ci : column_info) :
    (try_to_set_fixed ci).is_infeasible = ci.is_infeasible := by
  unfold try_to_set_fixed
  split <;> rfl

theorem store_tightened_marker (s : lar_solver) (ls : canonic_left_side) (ci : column_info) :
    (store_tightened_column_info s ls ci).m_infeasible_canonic_left_side
      = if ci.is_infeasible = true then some ls else s.m_infeasible_canonic_left_side := by
  unfold store_tightened_column_info
  split <;> simp [set_column_info]

theorem get_column_info_store_tightened (s : lar_solver) (ls : canonic_left_side)
    (ci : column_info) :
    get_column_info_from_var_index (store_tightened_column_info s ls ci)
        ls.m_additional_var_index
      = if ci.is_infeasible = true then ci else try_to_set_fixed ci := by
  unfold store_tightened_column_info
  split
  · exact get_column_info_set_column_info _ _ _
  · exact get_column_info_set_column_info _ _ _

theorem get_column_info_store_tightened_other (s : lar_solver) (ls : canonic_left_side)
    (ci : column_info) (j : var_index) (h : ls.m_additional_var_index ≠ j) :
    get_column_info_from_var_index (store_tightened_column_info s ls ci) j
      = get_column_info_from_var_index s j := by
  unfold store_tightened_column_info
  split
  · exact get_column_info_set_column_info_other s _ _ _ h
  · exact get_column_info_set_column_info_other s _ _ _ h

theorem store_tightened_contradictory (s : lar_solver) (ls : canonic_left_side)
    (ci : column_info)
    (h : (get_column_info_from_var_index (store_tightened_column_info s ls ci)
      ls.m_additional_var_index).is_infeasible = true) :
    (store_tightened_column_info s ls ci).m_infeasible_canonic_left_side = some ls
    ∧ (store_tightened_column_info s ls ci).m_status = lp_status.INFEASIBLE := by
  rw [get_column_info_store_tightened] at h
  unfold store_tightened_column_info
  by_cases hc : ci.is_infeasible = true
  · simp [hc]
  · exfalso
    rw [if_neg hc, is_infeasible_try_to_set_fixed] at h
    exact hc h

/-- A contradictory bound record after the update of a normalized constraint
has been recorded in the marker and in the status. -/
theorem update_column_info_contradictory (s : lar_solver) (nc : lar_normalized_constraint)
    (h : (get_column_info_from_var_index (update_column_info_of_normalized_constraint s nc)
      nc.m_canonic_left_side.m_additional_var_index).is_infeasible = true) :
    (update_column_info_of_normalized_constraint s nc).m_infeasible_canonic_left_side
      = some nc.m_canonic_left_side
    ∧ (update_column_info_of_normalized_constraint s nc).m_status = lp_status.INFEASIBLE := by
  unfold update_column_info_of_normalized_constraint at h ⊢
  split at h <;>
    first
    | exact store_tightened_contradictory _ _ _ h

theorem get_column_info_update_other (s : lar_solver) (nc : lar_normalized_constraint)
    (j : var_index) (h : nc.m_canonic_left_side.m_additional_var_index ≠ j) :
    get_column_info_from_var_index (update_column_info_of_normalized_constraint s nc) j
      = get_column_info_from_var_index s j := by
  unfold update_column_info_of_normalized_constraint
  split <;>
    simp only [set_upper_bound_for_column_info, set_low_bound_for_column_info,
      get_column_info_store_tightened_other _ _ _ _ h]

/-- A column whose record is contradictory after
`create_or_fetch_existing_left_side` had a contradictory record before: the
record of a new internal column has no bounds. -/
theorem create_or_fetch_is_infeasible (s : lar_solver) (l : List (mpq × var_index))
    (j : var_index)
    (h : (get_column_info_from_var_index (create_or_fetch_existing_left_side s l).2
      j).is_infeasible = true) :
    (get_column_info_from_var_index s j).is_infeasible = true := by
  unfold create_or_fetch_existing_left_side at h
  split at h
  · exact h
  · by_cases hj : s.m_available_var_index = j
    · exfalso
      subst hj
      simp [get_column_info_from_var_index, get_column_info_with_cls_from_var_index,
        map_find_map_set_same, column_info_with_cls.of_cls, column_info.init,
        column_info.is_infeasible] at h
    · simpa only [get_column_info_from_var_index, get_column_info_with_cls_from_var_index,
        map_find_map_set_other _ _ _ _ hj] using h

theorem add_degenerate_columns (d : degenerate_treatment) (s : lar_solver)
    (c : lar_constraint) :
    (add_degenerate_constraint d s c).m_map_from_var_index_to_column_info_with_cls
      = s.m_map_from_var_index_to_column_info_with_cls := by
  unfold add_degenerate_constraint
  cases d
  · rfl
  · simp only
    split <;> rfl

/-- The id that `add_constraint` returns is the value of
`m_available_constr_index`, in every case. -/
theorem add_constraint_id (d : degenerate_treatment) (s : lar_solver)
    (l : List (mpq × var_index)) (k : lconstraint_kind) (r : mpq) :
    (add_constraint d s l k r).1 = s.m_available_constr_index := by
  unfold add_constraint
  simp only
  split <;> rfl

/-- A column that `add_constraint` makes contradictory is the column of the
canonical left side of the constraint, which is recorded in the marker. -/
theorem add_constraint_contradictory (d : degenerate_treatment) (s : lar_solver)
    (l : List (mpq × var_index)) (k : lconstraint_kind) (r : mpq) (j : var_index)
    (hb : (get_column_info_from_var_index s j).is_infeasible = false)
    (ha : (get_column_info_from_var_index (add_constraint d s l k r).2 j).is_infeasible
      = true) :
    ∃ ls, (add_constraint d s l k r).2.m_infeasible_canonic_left_side = some ls
      ∧ ls.m_additional_var_index = j ∧ ls.m_coeffs = normalize l
      ∧ (add_constraint d s l k r).2.m_status = lp_status.INFEASIBLE := by
  unfold add_constraint at ha ⊢
  simp only at ha ⊢
  split at ha
  · exfalso
    simp only [get_column_info_from_var_index, get_column_info_with_cls_from_var_index,
      add_degenerate_columns] at ha hb
    rw [hb] at ha
    exact absurd ha (by simp)
  · rename_i ratio hr
    simp only [hr]
    by_cases hj : (create_or_fetch_existing_left_side
        { s with m_available_constr_index := (s.m_available_constr_index + 1) % UNSIGNED_RANGE }
        l).1.m_additional_var_index = j
    · subst hj
      obtain ⟨h1, h2⟩ := update_column_info_contradictory _ _ ha
      exact ⟨_, h1, rfl, create_or_fetch_coeffs _ _, h2⟩
    · exfalso
      rw [get_column_info_update_other _ _ _ hj] at ha
      have h1 := create_or_fetch_is_infeasible
        { s with m_available_constr_index := (s.m_available_constr_index + 1) % UNSIGNED_RANGE }
        l j ha
      have h2 : (get_column_info_from_var_index s j).is_infeasible = true := h1
      rw [hb] at h2
      exact absurd h2 (by simp)

/-- The marker of a contradiction, once set, stays set. -/
theorem marker_isSome_store (s : lar_solver) (ls : canonic_left_side) (ci : column_info)
    (h : s.m_infeasible_canonic_left_side.isSome = true) :
    (store_tightened_column_info s ls ci).m_infeasible_canonic_left_side.isSome = true := by
  rw [store_tightened_marker]
  split
  · rfl
  · exact h

theorem marker_isSome_update (s : lar_solver) (nc : lar_normalized_constraint)
    (h : s.m_infeasible_canonic_left_side.isSome = true) :
    (update_column_info_of_normalized_constraint s nc).m_infeasible_canonic_left_side.isSome
      = true := by
  unfold update_column_info_of_normalized_constraint
  split <;>
    simp only [set_upper_bound_for_column_info, set_low_bound_for_column_info] <;>
    first
    | exact marker_isSome_store _ _ _ h
    | exact marker_isSome_store _ _ _ (marker_isSome_store _ _ _ h)

theorem create_or_fetch_marker (s : lar_solver) (l : List (mpq × var_index)) :
    (create_or_fetch_existing_left_side s l).2.m_infeasible_canonic_left_side
      = s.m_infeasible_canonic_left_side := by
  unfold create_or_fetch_existing_left_side
  split <;> rfl

theorem marker_isSome_add_degenerate (d : degenerate_treatment) (s : lar_solver)
    (c : lar_constraint) (h : s.m_infeasible_canonic_left_side.isSome = true) :
    (add_degenerate_constraint d s c).m_infeasible_canonic_left_side.isSome = true := by
  unfold add_degenerate_constraint
  cases d
  · exact h
  · simp only
    split
    · exact h
    · rfl

theorem marker_isSome_add_constraint (d : degenerate_treatment) (s : lar_solver)
    (l : List (mpq × var_index)) (k : lconstraint_kind) (r : mpq)
    (h : s.m_infeasible_canonic_left_side.isSome = true) :
    (add_constraint d s l k r).2.m_infeasible_canonic_left_side.isSome = true := by
  unfold add_constraint
  simp only
  split
  · exact marker_isSome_add_degenerate d _ _ h
  · apply marker_isSome_update
    show (create_or_fetch_existing_left_side _ l).2.m_infeasible_canonic_left_side.isSome
      = true
    rw [create_or_fetch_marker]
    exact h

theorem marker_isSome_solve (e : simplex_engine) (s : lar_solver)
    (h : s.m_infeasible_canonic_left_side.isSome = true) :
    (solve e s).m_infeasible_canonic_left_side.isSome = true := by
  rw [(solve_keeps_registration e s).2.2.2.2.2.2]
  exact h

theorem marker_isSome_run_call (d : degenerate_treatment) (e : simplex_engine)
    (c : solver_call) (s : lar_solver)
    (h : s.m_infeasible_canonic_left_side.isSome = true) :
    (run_call d e s c).m_infeasible_canonic_left_side.isSome = true := by
  cases c with
  | add_var name => exact h
  | add_constraint l k r => exact marker_isSome_add_constraint d s l k r h
  | check => exact marker_isSome_solve e s h

theorem marker_isSome_run_calls (d : degenerate_treatment) (e : simplex_engine)
    (calls : List solver_call) (s : lar_solver)
    (h : s.m_infeasible_canonic_left_side.isSome = true) :
    (run_calls d e s calls).m_infeasible_canonic_left_side.isSome = true := by
  induction calls generalizing s with
  | nil => exact h
  | cons c cs ih => exact ih _ (marker_isSome_run_call d e c s h)

/-- With the marker set, `check` is unsatisfiable whatever the engine is. -/
theorem check_of_marker (e : simplex_engine) (s : lar_solver)
    (h : s.m_infeasible_canonic_left_side.isSome = true) :
    (check e s).1 = lp_status.INFEASIBLE
    ∧ ∀ e1 : simplex_engine, check e1 s = check e s := by
  cases hm : s.m_infeasible_canonic_left_side with
  | none => simp [hm] at h
  | some ls => simp [check, solve, hm]

/-- With the marker set, a sequence of calls does not depend on the engine. -/
theorem run_calls_of_marker (d : degenerate_treatment) (e e1 : simplex_engine)
    (calls : List solver_call) (s : lar_solver)
    (h : s.m_infeasible_canonic_left_side.isSome = true) :
    run_calls d e1 s calls = run_calls d e s calls := by
  induction calls generalizing s with
  | nil => rfl
  | cons c cs ih =>
    unfold run_calls
    have hc : run_call d e1 s c = run_call d e s c := by
      cases c with
      | add_var name => rfl
      | add_constraint l k r => rfl
      | check =>
        simp only [run_call]
        rw [(check_of_marker e s h).2 e1]
    rw [hc]
    exact ih _ (marker_isSome_run_call d e c s h)

/-- C4: an `add_constraint` call returns the constraint id, the value of
`m_available_constr_index`, in every case.  When the call makes the aggregated
bounds of a column `j` contradictory (they are not contradictory before the
call and the low bound is above the upper bound after it), the column is the
one of the canonical left side of the constraint, this canonical left side is
recorded in `m_infeasible_canonic_left_side`, the status is unsatisfiable, and
after every further sequence of calls `check()` returns unsatisfiable, with
the same result and the same solver whatever the simplex engine is. -/
theorem contradiction_at_registration (d : degenerate_treatment) (s : lar_solver)
    (l : List (mpq × var_index)) (k : lconstraint_kind) (r : mpq) :
    (add_constraint d s l k r).1 = s.m_available_constr_index
    ∧ ∀ j : var_index,
        (get_column_info_from_var_index s j).is_infeasible = false →
        (get_column_info_from_var_index (add_constraint d s l k r).2 j).is_infeasible
          = true →
        (∃ ls, (add_constraint d s l k r).2.m_infeasible_canonic_left_side = some ls
          ∧ ls.m_additional_var_index = j ∧ ls.m_coeffs = normalize l)
        ∧ (add_constraint d s l k r).2.m_status = lp_status.INFEASIBLE
        ∧ ∀ (e : simplex_engine) (calls : List solver_call),
            (check e (run_calls d e (add_constraint d s l k r).2 calls)).1
              = lp_status.INFEASIBLE
            ∧ ∀ e1 : simplex_engine,
                check e1 (run_calls d e1 (add_constraint d s l k r).2 calls)
                  = check e (run_calls d e (add_constraint d s l k r).2 calls) := by
  refine ⟨add_constraint_id d s l k r, ?_⟩
  intro j hb ha
  obtain ⟨ls, hm, hj, hco, hst⟩ := add_constraint_contradictory d s l k r j hb ha
  refine ⟨⟨ls, hm, hj, hco⟩, hst, ?_⟩
  intro e calls
  have h0 : (add_constraint d s l k r).2.m_infeasible_canonic_left_side.isSome = true := by
    rw [hm]
    rfl
  have h1 := marker_isSome_run_calls d e calls _ h0
  refine ⟨(check_of_marker e _ h1).1, ?_⟩
  intro e1
  rw [run_calls_of_marker d e e1 calls _ h0]
  exact (check_of_marker e _ h1).2 e1

/-- Witness of C4: with `x` and `y` registered and `y ≥ 2` added, the call for
`0x + y ≤ 1` returns the id 1 and makes the bounds of the column of `y`
contradictory; the canonical left side of `y` is recorded and every later
`check()` is unsatisfiable.  With `x = 1` followed by `x = 2`, two incompatible
fixed values, the column of `x` is contradictory as well. -/
theorem contradiction_at_registration_witness :
    (get_column_info_from_var_index
        (add_constraint degenerate_treatment.rejected (add_vars lar_solver.init ["x", "y"]).2
          [(1, 1)] lconstraint_kind.GE 2).2 1).is_infeasible = false
    ∧ (get_column_info_from_var_index
        (add_constraint degenerate_treatment.rejected
          (add_constraint degenerate_treatment.rejected (add_vars lar_solver.init ["x", "y"]).2
            [(1, 1)] lconstraint_kind.GE 2).2
          [(0, 0), (1, 1)] lconstraint_kind.LE 1).2 1).is_infeasible = true
    ∧ (add_constraint degenerate_treatment.rejected
          (add_constraint degenerate_treatment.rejected (add_vars lar_solver.init ["x", "y"]).2
            [(1, 1)] lconstraint_kind.GE 2).2
          [(0, 0), (1, 1)] lconstraint_kind.LE 1).1 = 1
    ∧ (add_constraint degenerate_treatment.rejected
          (add_constraint degenerate_treatment.rejected (add_vars lar_solver.init ["x", "y"]).2
            [(1, 1)] lconstraint_kind.GE 2).2
          [(0, 0), (1, 1)] lconstraint_kind.LE 1).2.m_infeasible_canonic_left_side
        = some ⟨[(1, 1)], 1⟩
    ∧ (add_constraint degenerate_treatment.rejected
          (add_constraint degenerate_treatment.rejected (add_vars lar_solver.init ["x", "y"]).2
            [(1, 1)] lconstraint_kind.GE 2).2
          [(0, 0), (1, 1)] lconstraint_kind.LE 1).2.m_status = lp_status.INFEASIBLE
    ∧ (∀ (e : simplex_engine) (calls : List solver_call),
        (check e (run_calls degenerate_treatment.rejected e
          (add_constraint degenerate_treatment.rejected
            (add_constraint degenerate_treatment.rejected
              (add_vars lar_solver.init ["x", "y"]).2 [(1, 1)] lconstraint_kind.GE 2).2
            [(0, 0), (1, 1)] lconstraint_kind.LE 1).2 calls)).1 = lp_status.INFEASIBLE)
    ∧ (get_column_info_from_var_index
        (add_constraint degenerate_treatment.rejected
          (add_constraint degenerate_treatment.rejected (add_var lar_solver.init "x").2
            [(1, 0)] lconstraint_kind.EQ 1).2
          [(1, 0)] lconstraint_kind.EQ 2).2 0).is_infeasible = true := by
  have hb : (get_column_info_from_var_index
        (add_constraint degenerate_treatment.rejected (add_vars lar_solver.init ["x", "y"]).2
          [(1, 1)] lconstraint_kind.GE 2).2 1).is_infeasible = false := by
    norm_num [add_vars, add_var, add_constraint, add_canonic_left_side_for_var,
      create_or_fetch_existing_left_side, normalize, sorted_terms, merge_terms, add_to_coeff,
      find_canonic_left_side, lar_solver.init, name_map_set,
      find_ratio_of_original_constraint_to_normalized,
      update_column_info_of_normalized_constraint, set_low_bound_for_column_info,
      set_upper_bound_for_column_info, store_tightened_column_info, set_column_info,
      get_column_info_from_var_index, get_column_info_with_cls_from_var_index, map_find,
      map_set, column_info.tighten_low_bound, column_info.tighten_upper_bound,
      column_info.is_infeasible, try_to_set_fixed, column_info_with_cls.of_cls,
      column_info.init, term_le, UNSIGNED_RANGE, List.insertionSort, List.orderedInsert]
  have ha : (get_column_info_from_var_index
        (add_constraint degenerate_treatment.rejected
          (add_constraint degenerate_treatment.rejected (add_vars lar_solver.init ["x", "y"]).2
            [(1, 1)] lconstraint_kind.GE 2).2
          [(0, 0), (1, 1)] lconstraint_kind.LE 1).2 1).is_infeasible = true := by
    norm_num [add_vars, add_var, add_constraint, add_canonic_left_side_for_var,
      create_or_fetch_existing_left_side, normalize, sorted_terms, merge_terms, add_to_coeff,
      find_canonic_left_side, lar_solver.init, name_map_set,
      find_ratio_of_original_constraint_to_normalized,
      update_column_info_of_normalized_constraint, set_low_bound_for_column_info,
      set_upper_bound_for_column_info, store_tightened_column_info, set_column_info,
      get_column_info_from_var_index, get_column_info_with_cls_from_var_index, map_find,
      map_set, column_info.tighten_low_bound, column_info.tighten_upper_bound,
      column_info.is_infeasible, try_to_set_fixed, column_info_with_cls.of_cls,
      column_info.init, term_le, UNSIGNED_RANGE, List.insertionSort, List.orderedInsert]
  have hid : (add_constraint degenerate_treatment.rejected
          (add_constraint degenerate_treatment.rejected (add_vars lar_solver.init ["x", "y"]).2
            [(1, 1)] lconstraint_kind.GE 2).2
          [(0, 0), (1, 1)] lconstraint_kind.LE 1).1 = 1 := by
    rw [add_constraint_id]
    norm_num [add_vars, add_var, add_constraint, add_canonic_left_side_for_var,
      create_or_fetch_existing_left_side, normalize, sorted_terms, merge_terms, add_to_coeff,
      find_canonic_left_side, lar_solver.init, name_map_set,
      find_ratio_of_original_constraint_to_normalized,
      update_column_info_of_normalized_constraint, set_low_bound_for_column_info,
      set_upper_bound_for_column_info, store_tightened_column_info, set_column_info,
      get_column_info_from_var_index, get_column_info_with_cls_from_var_index, map_find,
      map_set, column_info.tighten_low_bound, column_info.tighten_upper_bound,
      column_info.is_infeasible, try_to_set_fixed, column_info_with_cls.of_cls,
      column_info.init, term_le, UNSIGNED_RANGE, List.insertionSort, List.orderedInsert]
  have he : (get_column_info_from_var_index
        (add_constraint degenerate_treatment.rejected
          (add_constraint degenerate_treatment.rejected (add_var lar_solver.init "x").2
            [(1, 0)] lconstraint_kind.EQ 1).2
          [(1, 0)] lconstraint_kind.EQ 2).2 0).is_infeasible = true := by
    norm_num [add_var, add_constraint, add_canonic_left_side_for_var,
      create_or_fetch_existing_left_side, normalize, sorted_terms, merge_terms, add_to_coeff,
      find_canonic_left_side, lar_solver.init, name_map_set,
      find_ratio_of_original_constraint_to_normalized,
      update_column_info_of_normalized_constraint, set_low_bound_for_column_info,
      set_upper_bound_for_column_info, store_tightened_column_info, set_column_info,
      get_column_info_from_var_index, get_column_info_with_cls_from_var_index, map_find,
      map_set, column_info.tighten_low_bound, column_info.tighten_upper_bound,
      column_info.is_infeasible, try_to_set_fixed, column_info_with_cls.of_cls,
      column_info.init, term_le, UNSIGNED_RANGE, List.insertionSort, List.orderedInsert]
  have h := (contradiction_at_registration degenerate_treatment.rejected
    (add_constraint degenerate_treatment.rejected (add_vars lar_solver.init ["x", "y"]).2
      [(1, 1)] lconstraint_kind.GE 2).2 [(0, 0), (1, 1)] lconstraint_kind.LE 1).2 1 hb ha
  obtain ⟨⟨ls, hm, hj, hco⟩, hst, hch⟩ := h
  have hls : ls = ⟨[(1, 1)], 1⟩ := by
    have hn : normalize [((0 : mpq), (0 : var_index)), (1, 1)] = [(1, 1)] := by
      norm_num [normalize, sorted_terms, merge_terms, add_to_coeff, List.insertionSort,
        List.orderedInsert]
    rw [hn] at hco
    cases ls
    simp only at hj hco
    rw [hj, hco]
  rw [hls] at hm
  exact ⟨hb, ha, hid, hm, hst, fun e calls => (hch e calls).1, he⟩

/-! ## Allocation of variable ids -/

/-- The id returned by `add_var` is the value of the counter. -/
theorem add_var_id (s : lar_solver) (name : String) :
    (add_var s name).1 = s.m_available_var_index := rfl

/-- The counter after `add_var` is the next value of the 32-bit counter. -/
theorem add_var_counter (s : lar_solver) (name : String) :
    (add_var s name).2.m_available_var_index
      = (s.m_available_var_index + 1) % UNSIGNED_RANGE := rfl

theorem store_tightened_counter (s : lar_solver) (ls : canonic_left_side)
    (ci : column_info) :
    (store_tightened_column_info s ls ci).m_available_var_index
      = s.m_available_var_index := by
  unfold store_tightened_column_info
  split <;> simp [set_column_info]

theorem update_column_info_counter (s : lar_solver) (nc : lar_normalized_constraint) :
    (update_column_info_of_normalized_constraint s nc).m_available_var_index
      = s.m_available_var_index := by
  unfold update_column_info_of_normalized_constraint
  split <;>
    simp only [set_upper_bound_for_column_info, set_low_bound_for_column_info,
      store_tightened_counter]

theorem create_or_fetch_counter (s : lar_solver) (l : List (mpq × var_index)) :
    (create_or_fetch_existing_left_side s l).2.m_available_var_index
        = s.m_available_var_index
    ∨ (create_or_fetch_existing_left_side s l).2.m_available_var_index
        = (s.m_available_var_index + 1) % UNSIGNED_RANGE := by
  unfold create_or_fetch_existing_left_side
  split
  · exact Or.inl rfl
  · exact Or.inr rfl

theorem add_degenerate_counter (d : degenerate_treatment) (s : lar_solver)
    (c : lar_constraint) :
    (add_degenerate_constraint d s c).m_available_var_index = s.m_available_var_index := by
  unfold add_degenerate_constraint
  cases d
  · rfl
  · simp only
    split <;> rfl

/-- The call `add_constraint` leaves the counter of ids as it is or advances
it by one. -/
theorem add_constraint_counter (d : degenerate_treatment) (s : lar_solver)
    (l : List (mpq × var_index)) (k : lconstraint_kind) (r : mpq) :
    (add_constraint d s l k r).2.m_available_var_index = s.m_available_var_index
    ∨ (add_constraint d s l k r).2.m_available_var_index
        = (s.m_available_var_index + 1) % UNSIGNED_RANGE := by
  unfold add_constraint
  simp only
  split
  · left
    rw [add_degenerate_counter]
  · rw [update_column_info_counter]
    exact create_or_fetch_counter
      { s with m_available_constr_index := (s.m_available_constr_index + 1) % UNSIGNED_RANGE }
      l

theorem shift_ids (c : ℕ) (ks : List ℕ) :
    ks.map (fun k => ((c + 1) % UNSIGNED_RANGE + k) % UNSIGNED_RANGE)
      = (ks.map (fun k => k + 1)).map (fun k => (c + k) % UNSIGNED_RANGE) := by
  rw [List.map_map]
  apply List.map_congr_left
  intro k _
  simp only [Function.comp, UNSIGNED_RANGE]
  omega

theorem pairwise_shift (ks : List ℕ) (h : ks.Pairwise (fun a b => a < b)) :
    (ks.map (fun k => k + 1)).Pairwise (fun a b => a < b) :=
  List.pairwise_map.2 (h.imp (fun hab => Nat.succ_lt_succ hab))

/-- The ids returned by the `add_var` calls of a sequence of calls are values
of the counter at increasing distances from its first value, each distance
below the number of ids drawn. -/
theorem returned_var_ids_eq (d : degenerate_treatment) (e : simplex_engine)
    (calls : List solver_call) (s : lar_solver)
    (hs : s.m_available_var_index < UNSIGNED_RANGE) :
    ∃ ks : List ℕ,
      returned_var_ids d e s calls
        = ks.map (fun k => (s.m_available_var_index + k) % UNSIGNED_RANGE)
      ∧ ks.Pairwise (fun a b => a < b)
      ∧ ∀ k ∈ ks, k < ids_drawn d e s calls := by
  induction calls generalizing s with
  | nil => exact ⟨[], rfl, List.Pairwise.nil, by simp⟩
  | cons c cs ih =>
    have hR : 0 < UNSIGNED_RANGE := by simp [UNSIGNED_RANGE]
    cases c with
    | add_var name =>
      have hs1 : (add_var s name).2.m_available_var_index < UNSIGNED_RANGE := by
        rw [add_var_counter]
        exact Nat.mod_lt _ hR
      obtain ⟨ks, h1, h2, h3⟩ := ih (add_var s name).2 hs1
      have hne : ¬ (s.m_available_var_index + 1) % UNSIGNED_RANGE = s.m_available_var_index := by
        simp only [UNSIGNED_RANGE] at hs ⊢
        omega
      refine ⟨0 :: ks.map (fun k => k + 1), ?_, ?_, ?_⟩
      · simp only [returned_var_ids, List.map_cons, add_var_id, Nat.add_zero]
        rw [h1, add_var_counter, shift_ids, Nat.mod_eq_of_lt hs]
      · refine List.Pairwise.cons ?_ (pairwise_shift ks h2)
        intro a ha
        obtain ⟨k, _, hk⟩ := List.mem_map.1 ha
        omega
      · intro k hk
        simp only [ids_drawn, run_call, add_var_counter, hne, if_false]
        rcases List.mem_cons.1 hk with h0 | h0
        · omega
        · obtain ⟨k1, hk1, hk2⟩ := List.mem_map.1 h0
          have := h3 k1 hk1
          omega
    | add_constraint l k r =>
      rcases add_constraint_counter d s l k r with hc | hc
      · have hs1 : (add_constraint d s l k r).2.m_available_var_index < UNSIGNED_RANGE := by
          rw [hc]
          exact hs
        obtain ⟨ks, h1, h2, h3⟩ := ih (add_constraint d s l k r).2 hs1
        refine ⟨ks, ?_, h2, ?_⟩
        · simp only [returned_var_ids, run_call]
          rw [h1, hc]
        · intro k1 hk1
          simp only [ids_drawn, run_call, hc, if_true, Nat.zero_add]
          exact h3 k1 hk1
      · have hs1 : (add_constraint d s l k r).2.m_available_var_index < UNSIGNED_RANGE := by
          rw [hc]
          exact Nat.mod_lt _ hR
        obtain ⟨ks, h1, h2, h3⟩ := ih (add_constraint d s l k r).2 hs1
        have hne : ¬ (s.m_available_var_index + 1) % UNSIGNED_RANGE
            = s.m_available_var_index := by
          simp only [UNSIGNED_RANGE] at hs ⊢
          omega
        refine ⟨ks.map (fun k => k + 1), ?_, pairwise_shift ks h2, ?_⟩
        · simp only [returned_var_ids, run_call]
          rw [h1, hc, shift_ids]
        · intro k1 hk1
          simp only [ids_drawn, run_call, hc, hne, if_false]
          obtain ⟨k2, hk2, hk3⟩ := List.mem_map.1 hk1
          have := h3 k2 hk2
          omega
    | check =>
      have hc : (check e s).2.m_available_var_index = s.m_available_var_index :=
        (solve_keeps_registration e s).1
      have hs1 : (check e s).2.m_available_var_index < UNSIGNED_RANGE := by
        rw [hc]
        exact hs
      obtain ⟨ks, h1, h2, h3⟩ := ih (check e s).2 hs1
      refine ⟨ks, ?_, h2, ?_⟩
      · simp only [returned_var_ids, run_call]
        rw [h1, hc]
      · intro k1 hk1
        simp only [ids_drawn, run_call, hc, if_true, Nat.zero_add]
        exact h3 k1 hk1

/-- C7 (amended): on a solver whose counter `m_available_var_index` is a 32-bit
value, for every sequence of `add_var`, `add_constraint` and `check` calls that
draws at most 2^32 ids from the counter, the ids returned by the `add_var`
calls are pairwise distinct, whatever the names are (a name passed again gets
a new id); each `add_var` call returns the value of the counter and advances
it by one modulo 2^32. -/
theorem add_var_ids_distinct (d : degenerate_treatment) (e : simplex_engine)
    (s : lar_solver) (calls : List solver_call)
    (hs : s.m_available_var_index < UNSIGNED_RANGE)
    (hcap : ids_drawn d e s calls ≤ UNSIGNED_RANGE) :
    (returned_var_ids d e s calls).Nodup
    ∧ ∀ (t : lar_solver) (name : String),
        (add_var t name).1 = t.m_available_var_index
        ∧ (add_var t name).2.m_available_var_index
            = (t.m_available_var_index + 1) % UNSIGNED_RANGE := by
  refine ⟨?_, fun t name => ⟨rfl, rfl⟩⟩
  obtain ⟨ks, h1, h2, h3⟩ := returned_var_ids_eq d e calls s hs
  rw [h1]
  refine List.Nodup.map_on ?_ (h2.imp (fun hab => Nat.ne_of_lt hab))
  intro a ha b hb hab
  have h4 : a % UNSIGNED_RANGE = b % UNSIGNED_RANGE :=
    Nat.ModEq.add_left_cancel (Nat.ModEq.refl s.m_available_var_index) hab
  have hla := h3 a ha
  have hlb := h3 b hb
  rwa [Nat.mod_eq_of_lt (by omega), Nat.mod_eq_of_lt (by omega)] at h4

/-- Witness of C7 (amended): on a fresh solver the calls `add_var("x")`,
`add_var("y")`, `x + y ≤ 4`, `add_var("x")` return the ids 0, 1 and 3: the
constraint takes the id 2 for its internal column, and the name "x" passed
again gets a new id. -/
theorem add_var_ids_distinct_witness :
    returned_var_ids degenerate_treatment.rejected idle_engine lar_solver.init
        [solver_call.add_var "x", solver_call.add_var "y",
         solver_call.add_constraint [(1, 0), (1, 1)] lconstraint_kind.LE 4,
         solver_call.add_var "x"] = [0, 1, 3]
    ∧ (returned_var_ids degenerate_treatment.rejected idle_engine lar_solver.init
        [solver_call.add_var "x", solver_call.add_var "y",
         solver_call.add_constraint [(1, 0), (1, 1)] lconstraint_kind.LE 4,
         solver_call.add_var "x"]).Nodup := by
  refine ⟨?_, (add_var_ids_distinct degenerate_treatment.rejected idle_engine lar_solver.init
    [solver_call.add_var "x", solver_call.add_var "y",
     solver_call.add_constraint [(1, 0), (1, 1)] lconstraint_kind.LE 4,
     solver_call.add_var "x"] (by simp [lar_solver.init, UNSIGNED_RANGE]) ?_).1⟩
  · norm_num [returned_var_ids, run_call, add_var, add_constraint,
      add_canonic_left_side_for_var, update_column_info_counter,
      create_or_fetch_existing_left_side, normalize, sorted_terms, merge_terms, add_to_coeff,
      find_canonic_left_side, lar_solver.init, name_map_set,
      find_ratio_of_original_constraint_to_normalized, map_find,
      map_set, column_info_with_cls.of_cls, column_info.init, term_le, UNSIGNED_RANGE,
      List.insertionSort, List.orderedInsert]
  · norm_num [ids_drawn, run_call, add_var, add_constraint,
      add_canonic_left_side_for_var, update_column_info_counter,
      create_or_fetch_existing_left_side, normalize, sorted_terms, merge_terms, add_to_coeff,
      find_canonic_left_side, lar_solver.init, name_map_set,
      find_ratio_of_original_constraint_to_normalized, map_find,
      map_set, column_info_with_cls.of_cls, column_info.init, term_le, UNSIGNED_RANGE,
      List.insertionSort, List.orderedInsert]

theorem returned_var_ids_replicate (d : degenerate_treatment) (e : simplex_engine)
    (name : String) (n : ℕ) (s : lar_solver) :
    (returned_var_ids d e s (List.replicate n (solver_call.add_var name))).length = n := by
  induction n generalizing s with
  | zero => rfl
  | succ n ih =>
    simp only [List.replicate_succ, returned_var_ids, List.length_cons, ih]

/-- C7 (counterexample): the ids are 32-bit values, so that 2^32 + 1 calls of
`add_var` on a fresh solver do not return pairwise distinct ids. -/
theorem add_var_ids_repeat_after_wrap :
    ¬ (returned_var_ids degenerate_treatment.rejected idle_engine lar_solver.init
        (List.replicate (UNSIGNED_RANGE + 1) (solver_call.add_var "x"))).Nodup := by
  intro h
  obtain ⟨ks, h1, _, _⟩ := returned_var_ids_eq degenerate_treatment.rejected idle_engine
    (List.replicate (UNSIGNED_RANGE + 1) (solver_call.add_var "x")) lar_solver.init
    (by simp [lar_solver.init, UNSIGNED_RANGE])
  have hsub : returned_var_ids degenerate_treatment.rejected idle_engine lar_solver.init
      (List.replicate (UNSIGNED_RANGE + 1) (solver_call.add_var "x"))
        ⊆ List.range UNSIGNED_RANGE := by
    intro x hx
    rw [h1] at hx
    obtain ⟨k, _, hk⟩ := List.mem_map.1 hx
    rw [List.mem_range, ← hk]
    exact Nat.mod_lt _ (by simp [UNSIGNED_RANGE])
  have hlen := (List.subperm_of_subset h hsub).length_le
  rw [returned_var_ids_replicate, List.length_range] at hlen
  omega

/-! ## Aggregation of bounds on one column -/

end LarSolver
